import Mathlib

/-!
# Verification of the segmented-transcription pipeline

Shallow embedding of the transcription pipeline of a Telegram
transcription bot (`src/transcribe.js` and the bot entry point).
JavaScript numbers that hold times and durations are modelled as
rationals (`ℚ`); JavaScript `NaN` is modelled as `Option.none` at the
points where the code's control flow inspects it.  JS strings are
modelled as Lean `String`s; the JS string primitives used by the code
(`trim`, `split` on a one-character separator, `replace`, end-of-string
tests, `Number(...).toString()`) are given explicit structural
definitions below so that every function of the model is executable by
kernel reduction.  (JS `length` counts UTF-16 units, Lean counts
codepoints; they agree on all inputs considered here.)
-/

namespace TranscribeBot

/-! ## String and number primitives -/

/-- JS `String.prototype.trim()`: drop whitespace from both ends. -/
def jsTrim (s : String) : String :=
  ⟨((s.data.dropWhile Char.isWhitespace).reverse.dropWhile Char.isWhitespace).reverse⟩

/-- Helper of `splitOnChar`: current (reversed) chunk, remaining input. -/
def splitOnCharAux (c : Char) : List Char → List Char → List (List Char)
  | acc, [] => [acc.reverse]
  | acc, x :: xs =>
      if x = c then acc.reverse :: splitOnCharAux c [] xs
      else splitOnCharAux c (x :: acc) xs

/-- JS `String.prototype.split(sep)` for a one-character separator
(the code only splits on `':'` and `'\n'`). -/
def splitOnChar (c : Char) (s : String) : List String :=
  (splitOnCharAux c [] s.data).map fun l => ⟨l⟩

/-- The regex test `/[c]$/`: the last character of the string is `c`. -/
def lastCharIs (c : Char) (s : String) : Bool := s.data.getLast? = some c

/-- Does the string contain the character? -/
def containsChar (c : Char) (s : String) : Bool := s.data.contains c

/-- Decimal digits of a natural number, most significant first; the
fuel argument bounds the recursion depth and any fuel `≥ n` suffices. -/
def natToCharsAux : ℕ → ℕ → List Char → List Char
  | 0, _, acc => acc
  | fuel + 1, n, acc =>
      if n < 10 then Nat.digitChar n :: acc
      else natToCharsAux fuel (n / 10) (Nat.digitChar (n % 10) :: acc)

/-- JS `Number.prototype.toString()` for integer values. -/
def intToString (i : ℤ) : String :=
  if i < 0 then "-" ++ ⟨natToCharsAux i.natAbs.succ i.natAbs []⟩
  else ⟨natToCharsAux i.toNat.succ i.toNat []⟩

/-- Truncation toward zero of a rational, modelling the rounding JS's
`%` operator applies to the quotient. -/
def ratTrunc (q : ℚ) : ℤ := if 0 ≤ q then Rat.floor q else Rat.ceil q

/-- JS remainder `a % b`: `a - b * trunc (a / b)`. -/
def jsMod (a b : ℚ) : ℚ := a - b * (ratTrunc (a / b) : ℚ)

/-- `String.prototype.padStart(2, '0')`. -/
def padStart2 (s : String) : String :=
  if 2 ≤ s.length then s else ⟨List.replicate (2 - s.length) '0'⟩ ++ s

/-! ## JS numeric-string parsing

`parseSeconds` (`src/transcribe.js` lines 16–23) and `parseTimecode`
(bot entry point, lines 109–113) parse time strings with JS `Number`
and `parseFloat`.  `none` models `NaN`.  The models cover decimal
literals with an optional sign and fraction; JS additionally accepts
exponent, hexadecimal and `Infinity` forms, which never occur in this
program's inputs and are mapped to `NaN` here. -/

/-- Numeric value of a digit string. -/
def digitsVal (ds : List Char) : ℕ :=
  ds.foldl (fun n c => n * 10 + (c.toNat - '0'.toNat)) 0

/-- Value of a fractional digit string. -/
def fracVal (ds : List Char) : ℚ := (digitsVal ds : ℚ) / (10 : ℚ) ^ ds.length

/-- JS `Number(str)` on decimal literals: trims whitespace, maps the
empty string to `0`, accepts an optional sign and `d+`, `d+.d*` or
`.d+`; everything else is `NaN` (`none`). -/
def jsNumber (s : String) : Option ℚ :=
  let t := jsTrim s
  if t = "" then some 0
  else
    let cs := t.data
    let sgn : ℚ := if cs.head? = some '-' then -1 else 1
    let cs := if cs.head? = some '-' ∨ cs.head? = some '+' then cs.tail else cs
    let ip := cs.takeWhile Char.isDigit
    match cs.dropWhile Char.isDigit with
    | [] => if ip = [] then none else some (sgn * digitsVal ip)
    | '.' :: fr =>
        if fr.all Char.isDigit ∧ ¬(ip = [] ∧ fr = []) then
          some (sgn * ((digitsVal ip : ℚ) + fracVal fr))
        else none
    | _ => none

/-- JS `parseFloat(str)` on decimal literals: trims leading whitespace,
parses the longest prefix of the form `[sign] d+ [. d*]` or
`[sign] . d+`; `NaN` (`none`) when no digits are found. -/
def jsParseFloat (s : String) : Option ℚ :=
  let cs := s.data.dropWhile Char.isWhitespace
  let sgn : ℚ := if cs.head? = some '-' then -1 else 1
  let cs := if cs.head? = some '-' ∨ cs.head? = some '+' then cs.tail else cs
  let ip := cs.takeWhile Char.isDigit
  match cs.dropWhile Char.isDigit with
  | '.' :: fr =>
      let fp := fr.takeWhile Char.isDigit
      if ip = [] ∧ fp = [] then none
      else some (sgn * ((digitsVal ip : ℚ) + fracVal fp))
  | _ => if ip = [] then none else some (sgn * digitsVal ip)

/-- `timeString.replace('s', '')`: remove the first `'s'`, if any. -/
def removeFirstS : List Char → List Char
  | [] => []
  | c :: rest => if c = 's' then rest else c :: removeFirstS rest

/-- `parseSeconds` from `src/transcribe.js` (lines 16–23): the empty
string (falsy) is `0`; a string containing `:` is read as
`parts[0]*3600 + parts[1]*60 + parts[2]` after `split(':').map(Number)`
(fewer than three parts, or `NaN` among the first three, yields `NaN`;
parts beyond the third are ignored); otherwise
`parseFloat(timeString.replace('s', ''))`. -/
def parseSeconds (timeString : String) : Option ℚ :=
  if timeString = "" then some 0
  else if containsChar ':' timeString then
    match (splitOnChar ':' timeString).map jsNumber with
    | some a :: some b :: some c :: _ => some (a * 3600 + b * 60 + c)
    | _ => none
  else jsParseFloat ⟨removeFirstS timeString.data⟩

/-! ## Timestamp formatting -/

/-- `formatTime` from `src/transcribe.js` (lines 25–31), for a numeric
first argument (the only kind the current code passes):
`totalSeconds = currentSeconds + offsetSeconds`,
`minutes = Math.floor(totalSeconds / 60)`,
`seconds = Math.floor(totalSeconds % 60)`, rendered as
`[MM:SS]` with both fields `padStart(2, '0')`-padded. -/
def formatTime (currentSeconds : ℚ) (offsetSeconds : ℚ) : String :=
  let totalSeconds := currentSeconds + offsetSeconds
  let minutes : ℤ := Rat.floor (totalSeconds / 60)
  let seconds : ℤ := Rat.floor (jsMod totalSeconds 60)
  "[" ++ padStart2 (intToString minutes) ++ ":" ++ padStart2 (intToString seconds) ++ "]"

/-! ## The line-break heuristic of `transcribePart` (code side) -/

/-- A recognizer word token after its time strings have been parsed:
`word`, `startSeconds`, `endSeconds` as in `transcribePart`
(lines 144–149 of `src/transcribe.js`). -/
structure WordTok where
  word : String
  startSeconds : ℚ
  endSeconds : ℚ
  deriving DecidableEq

/-- `/[.!?]$/.test(word)` — the word ends a sentence. -/
def isSentenceEnd (w : String) : Bool :=
  lastCharIs '.' w || lastCharIs '!' w || lastCharIs '?' w

/-- `/[,]$/.test(word)` — the word ends with a comma. -/
def isComma (w : String) : Bool := lastCharIs ',' w

/-- `allWords.some((w) => /[.!?]/.test(w.word))` (line 137): does any
word of the segment contain visible sentence punctuation? -/
def hasPunctuationOf (ws : List WordTok) : Bool :=
  ws.any fun w => w.word.data.any fun c => c == '.' || c == '!' || c == '?'

/-- The mutable assembler state of the word loop in `transcribePart`
(lines 139–142): `formattedTranscript`, `currentLine`,
`currentLineStartTime` (`none` models JS `null`), `lastWordEndTime`. -/
structure LineState where
  formattedTranscript : String
  currentLine : String
  currentLineStartTime : Option ℚ
  lastWordEndTime : ℚ

/-- One iteration of the `allWords.forEach` body (lines 144–185 of
`src/transcribe.js`).  `isFirst` models `index > 0` (negated), `isLast`
models `index === allWords.length - 1`.  A `null` start time is read
back as `0` (JS `null` coerces to `0` inside `formatTime`), which the
code never relies on because every flush happens with the start time
set. -/
def wordStep (hasPunctuation : Bool) (timeOffset : ℚ) (st : LineState)
    (w : WordTok) (isFirst isLast : Bool) : LineState :=
  let gap := w.startSeconds - st.lastWordEndTime
  let st1 := if st.currentLine = "" then
      { st with currentLineStartTime := some w.startSeconds } else st
  let shouldSplitBySilence :=
    !isFirst && (if hasPunctuation then decide (gap > 5) else decide (gap > 1))
  let st2 := if shouldSplitBySilence && decide (0 < st1.currentLine.length) then
      { st1 with
        formattedTranscript := st1.formattedTranscript ++
          (formatTime (st1.currentLineStartTime.getD 0) timeOffset ++ " " ++
            jsTrim st1.currentLine ++ "\n"),
        currentLine := "",
        currentLineStartTime := some w.startSeconds }
    else st1
  let st3 := { st2 with
    currentLine := st2.currentLine ++ w.word ++ " ",
    lastWordEndTime := w.endSeconds }
  if isSentenceEnd w.word || (isComma w.word && decide (100 < st3.currentLine.length)) ||
      decide (150 < st3.currentLine.length) || isLast then
    { st3 with
      formattedTranscript := st3.formattedTranscript ++
        (formatTime (st3.currentLineStartTime.getD 0) timeOffset ++ " " ++
          jsTrim st3.currentLine ++ "\n"),
      currentLine := "",
      currentLineStartTime := none }
  else st3

/-- The `allWords.forEach` loop, carrying the index. -/
def wordsLoop (hasPunctuation : Bool) (timeOffset : ℚ) :
    LineState → ℕ → List WordTok → LineState
  | st, _, [] => st
  | st, i, w :: rest =>
      wordsLoop hasPunctuation timeOffset
        (wordStep hasPunctuation timeOffset st w (i == 0) rest.isEmpty) (i + 1) rest

/-- The smart-parsing portion of `transcribePart` (lines 134–185): the
`formattedTranscript` string produced for one segment from its word
tokens and the segment's `timeOffset`. -/
def smartFormat (timeOffset : ℚ) (ws : List WordTok) : String :=
  (wordsLoop (hasPunctuationOf ws) timeOffset
    ⟨"", "", none, 0⟩ 0 ws).formattedTranscript

/-! ## Specification-side model of the line-break heuristic

The following definitions follow the wording of the specification, not
the code: a transcript is a list of lines, each carrying its start time
(the start of its first word) and its text; silence forces a break on a
gap above a punctuation-dependent threshold; a line is flushed when the
word ends a sentence, ends a comma on a long line, the line is too
long, or the word is the last of the segment. -/

/-- Spec side: one transcript line, with the start time of its first
word and its text (each word followed by one space). -/
structure SpecLine where
  startTime : ℚ
  text : String
  deriving DecidableEq

/-- Spec side: silence threshold — `5.0s` when the recognizer produced
visible punctuation in the segment, `1.0s` otherwise. -/
def specThreshold (hasPunctuation : Bool) : ℚ := if hasPunctuation then 5 else 1

/-- Spec side: flush the current line when the word ends a sentence
(`.`, `!`, `?`), or the word ends with a comma and the line exceeds 100
characters, or the line exceeds 150 characters, or this is the last
word of the segment. -/
def specFlushCond (w : WordTok) (lineText : String) (isLast : Bool) : Bool :=
  isSentenceEnd w.word || (isComma w.word && decide (100 < lineText.length)) ||
    decide (150 < lineText.length) || isLast

/-- Spec side: running state — emitted lines, the currently open line
(if any), and the end time of the previous word. -/
structure SpecState where
  lines : List SpecLine
  cur : Option SpecLine
  lastEnd : ℚ

/-- Spec side: processing of one word.  A silence-forced break occurs
exactly when this is not the first word of the segment and the gap
between the word's start and the previous word's end exceeds the
threshold (breaking with no line open is a no-op); the word is appended
to the open line (opening one at this word's start time if needed);
and, independent of silence, the line is flushed exactly when
`specFlushCond` holds. -/
def specStep (hasPunctuation : Bool) (s : SpecState) (w : WordTok)
    (isFirst isLast : Bool) : SpecState :=
  match s.cur with
  | none =>
      let line : SpecLine := ⟨w.startSeconds, w.word ++ " "⟩
      if specFlushCond w line.text isLast then
        ⟨s.lines ++ [line], none, w.endSeconds⟩
      else
        ⟨s.lines, some line, w.endSeconds⟩
  | some l =>
      if !isFirst && decide (w.startSeconds - s.lastEnd > specThreshold hasPunctuation) then
        let line : SpecLine := ⟨w.startSeconds, w.word ++ " "⟩
        if specFlushCond w line.text isLast then
          ⟨s.lines ++ [l, line], none, w.endSeconds⟩
        else
          ⟨s.lines ++ [l], some line, w.endSeconds⟩
      else
        let line : SpecLine := ⟨l.startTime, l.text ++ w.word ++ " "⟩
        if specFlushCond w line.text isLast then
          ⟨s.lines ++ [line], none, w.endSeconds⟩
        else
          ⟨s.lines, some line, w.endSeconds⟩

/-- Spec side: the word loop. -/
def specLoop (hasPunctuation : Bool) : SpecState → ℕ → List WordTok → SpecState
  | s, _, [] => s
  | s, i, w :: rest =>
      specLoop hasPunctuation (specStep hasPunctuation s w (i == 0) rest.isEmpty)
        (i + 1) rest

/-- Spec side: the transcript lines of a segment. -/
def specLines (hasPunctuation : Bool) (ws : List WordTok) : List SpecLine :=
  (specLoop hasPunctuation ⟨[], none, 0⟩ 0 ws).lines

/-- Rendering of one spec line the way the code renders a flush:
timestamp, space, trimmed text, newline. -/
def lineRender (timeOffset : ℚ) (l : SpecLine) : String :=
  formatTime l.startTime timeOffset ++ " " ++ jsTrim l.text ++ "\n"

/-- Rendering of a list of spec lines. -/
def renderLines (timeOffset : ℚ) : List SpecLine → String
  | [] => ""
  | l :: ls => lineRender timeOffset l ++ renderLines timeOffset ls

/-- Spec side: the claim's `hasPunctuation` condition as a proposition:
some word of the segment contains `.`, `!` or `?`. -/
def specHasPunctuation (ws : List WordTok) : Prop :=
  ∃ w ∈ ws, ∃ c ∈ w.word.data, c = '.' ∨ c = '!' ∨ c = '?'

/-! ## Raw recognizer word objects (claim C10)

A word of the recognizer's JSON output, before time parsing: the
`startOffset` / `endOffset` fields may be absent (`none`). -/

/-- A raw recognizer word: `word` with optional `startOffset` and
`endOffset` strings (`"1.5s"` form). -/
structure WordObj where
  word : String
  startOffset : Option String
  endOffset : Option String
  deriving DecidableEq

/-- JS `x || '0s'` for an optional string field: absent (`undefined`)
and the empty string are falsy and yield `'0s'`. -/
def jsOrZeroS : Option String → String
  | none => "0s"
  | some s => if s = "" then "0s" else s

/-- `parseSeconds(wordObj.startOffset || '0s')` (lines 146, 148). -/
def wordStartSeconds (w : WordObj) : Option ℚ := parseSeconds (jsOrZeroS w.startOffset)

/-- `parseSeconds(wordObj.endOffset || '0s')` (lines 147, 149). -/
def wordEndSeconds (w : WordObj) : Option ℚ := parseSeconds (jsOrZeroS w.endOffset)

/-- Parse one raw word into a token; `none` when a present offset
string is not numeric (JS would carry `NaN` times instead). -/
def toWordTok (w : WordObj) : Option WordTok :=
  match wordStartSeconds w, wordEndSeconds w with
  | some a, some b => some ⟨w.word, a, b⟩
  | _, _ => none

/-- Parse a list of raw words. -/
def toWordToks : List WordObj → Option (List WordTok)
  | [] => some []
  | w :: ws =>
      match toWordTok w, toWordToks ws with
      | some t, some ts => some (t :: ts)
      | _, _ => none

/-! ## Effect-trace model of `transcribePart` (claims C3, C4, C5)

`transcribePart` (`src/transcribe.js` lines 80–193) is modelled as a
pure function from an environment (the outcomes of the external calls)
to the ordered list of remote-storage/recognition events it performs
and the string it returns.  Word tokens appear already time-parsed; the
2-second dispatch stagger and the interleaving of concurrent segments
are not part of the model (one segment gives one sequential event
list). -/

/-- Outcome of one `speechClient.batchRecognize` submission: success, a
quota-exhaustion rejection (`err.code === 8`), or any other error. -/
inductive RecogOutcome where
  | ok
  | quota
  | fail
  deriving DecidableEq

/-- Remote events of one segment job. -/
inductive Ev where
  | upload
  | submit
  | sleepEv (ms : ℕ)
  | download
  | deleteAudio
  | deleteResult
  deriving DecidableEq

/-- Result of the submission retry loop. -/
structure SubmitResult where
  obtained : Bool
  submissions : ℕ
  sleeps : List ℕ
  deriving DecidableEq

/-- The `while (true)` retry loop around `batchRecognize`
(lines 101–114).  The code keeps a `retries` counter and retries while
`err.code === 8 && retries < 5`, sleeping `60000` ms before each retry;
here `remaining = 5 - retries` counts the retries still allowed, so the
guard `retries < 5` becomes `remaining > 0`.  `env n` is the outcome of
the `n`-th submission. -/
def submitLoop (env : ℕ → RecogOutcome) : ℕ → ℕ → SubmitResult
  | remaining, ix =>
    match env ix, remaining with
    | .ok, _ => ⟨true, 1, []⟩
    | .fail, _ => ⟨false, 1, []⟩
    | .quota, 0 => ⟨false, 1, []⟩
    | .quota, r + 1 =>
        let rest := submitLoop env r (ix + 1)
        ⟨rest.obtained, rest.submissions + 1, 60000 :: rest.sleeps⟩

/-- The submit/sleep events of the retry loop, in order: one `submit`
per submission with a `sleep` between consecutive submissions. -/
def submitEvents (r : SubmitResult) : List Ev :=
  .submit :: r.sleeps.flatMap fun d => [Ev.sleepEv d, Ev.submit]

/-- Outcome of the job after a successful submission: the operation or
result extraction fails (`operation.promise()` rejection, missing
`fileResult`, `fileResult.error`, missing output URI — all before the
download); the download fails; `JSON.parse` fails (after the download,
before the deletes); or everything succeeds with the given word list. -/
inductive OpOutcome where
  | opFail
  | downloadFail
  | parseFail
  | ok (words : List WordTok)
  deriving DecidableEq

/-- Environment of one segment job. -/
structure PartEnv where
  uploadOk : Bool
  recog : ℕ → RecogOutcome
  op : OpOutcome

/-- The placeholder returned by the `catch` block of `transcribePart`
(line 191): `[Error part: ` followed by `formatTime(0, timeOffset)`
and `]`. -/
def errorStr (timeOffset : ℚ) : String :=
  "[Error part: " ++ formatTime 0 timeOffset ++ "]"

/-- Effect trace of `transcribePart` (lines 86–193): upload; submission
retry loop; on success, await the operation, download the result, parse
it, delete the uploaded audio blob and the result blob
(`Promise.allSettled`, best-effort, lines 128–131), then build the
transcript.  Any thrown error is caught at line 189 and the placeholder
is returned; no cleanup runs on those paths (there is no `finally`). -/
def transcribePartTrace (env : PartEnv) (timeOffset : ℚ) : List Ev × String :=
  if env.uploadOk = false then ([.upload], errorStr timeOffset)
  else
    let s := submitLoop env.recog 5 0
    let evs := Ev.upload :: submitEvents s
    if s.obtained = false then (evs, errorStr timeOffset)
    else
      match env.op with
      | .opFail => (evs, errorStr timeOffset)
      | .downloadFail => (evs ++ [.download], errorStr timeOffset)
      | .parseFail => (evs ++ [.download], errorStr timeOffset)
      | .ok words =>
          (evs ++ [.download, .deleteAudio, .deleteResult],
            smartFormat timeOffset words)

/-- Does the segment job fail terminally (return the placeholder)? -/
def partFails (e : PartEnv) : Bool :=
  !e.uploadOk || !(submitLoop e.recog 5 0).obtained ||
    (match e.op with | .ok _ => false | _ => true)

/-- Did the job succeed through download and `JSON.parse` (the point at
which, and only at which, the code deletes the two remote blobs)? -/
def successThroughParse (e : PartEnv) : Prop :=
  e.uploadOk = true ∧ (submitLoop e.recog 5 0).obtained = true ∧
    ∃ ws, e.op = .ok ws

/-! ## Batch merge of `processFile` (claim C5) -/

/-- JS `array.join('\n')`. -/
def joinNL : List String → String
  | [] => ""
  | [a] => a
  | a :: b :: rest => a ++ "\n" ++ joinNL (b :: rest)

/-- The batch loop of `processFile` (lines 229–241): results are taken
in batches of `BATCH_SIZE = 4`; each batch's results are joined with
`'\n'` and appended to the full transcript. -/
def mergeBatches : List String → String
  | [] => ""
  | [a] => joinNL [a]
  | [a, b] => joinNL [a, b]
  | [a, b, c] => joinNL [a, b, c]
  | a :: b :: c :: d :: rest => joinNL [a, b, c, d] ++ mergeBatches rest

/-- Closed form of the merge: the results concatenated in segment
order, with a newline before every result except the first of each
batch of four. -/
def mergeGo : ℕ → List String → String
  | _, [] => ""
  | i, r :: rest => (if i % 4 = 0 then "" else "\n") ++ r ++ mergeGo (i + 1) rest

/-- The per-segment result strings of a job: segment `i` is transcribed
with its own environment and its own offset (`batchPromises`,
lines 232–237). -/
def segmentResults (envs : ℕ → PartEnv) (offs : List ℚ) : List String :=
  offs.enum.map fun p => (transcribePartTrace (envs p.1) p.2).2

/-! ## Split planning of `processFile` (claims C6, C9) -/

/-- `SPLIT_THRESHOLD` (line 212). -/
def SPLIT_THRESHOLD : ℚ := 1140

/-- The chunk offsets computed by `processFile` in automatic mode
(lines 210–224): when `duration > SPLIT_THRESHOLD` the file is split
and the offsets are `i * SPLIT_THRESHOLD` for each of the `splitCount`
files the splitter produced; otherwise the single original file with
offset `0`.  The code performs no validation of `duration`. -/
def autoPlan (duration : ℚ) (splitCount : ℕ) : List ℚ :=
  if duration > SPLIT_THRESHOLD then
    (List.range splitCount).map fun (i : ℕ) => (i : ℚ) * SPLIT_THRESHOLD
  else [0]

/-- The number of files `ffmpeg -f segment -segment_time s` produces
for a recording of duration `d > s`, per the splitter-tool contract of
the specification (fixed-interval cuts): `⌈d / s⌉`. -/
def segmentTimeSplitCount (d s : ℚ) : ℕ := (Rat.ceil (d / s)).toNat

/-- The whole automatic-mode job: plan, transcribe every segment,
merge.  Events are listed segment by segment in segment order. -/
def processFileAuto (duration : ℚ) (splitCount : ℕ) (envs : ℕ → PartEnv) :
    List Ev × String :=
  let offs := autoPlan duration splitCount
  let rs := offs.enum.map fun p => transcribePartTrace (envs p.1) p.2
  ((rs.map Prod.fst).flatten, mergeBatches (rs.map Prod.snd))

/-! ## Manual split negotiation (claims C7, C8)

From the bot entry point: `parseTimecode` (lines 109–113) and the
`bot.on('message')` timecode handler (lines 121–176). -/

/-- `MAX_SEGMENT_DURATION_SEC = 19 * 60` (line 21). -/
def MAX_SEGMENT_DURATION_SEC : ℚ := 19 * 60

/-- `parseTimecode` (lines 109–113): `str.trim().split(':').map(Number)`
must give exactly three non-`NaN` parts; the value is
`parts[0]*3600 + parts[1]*60 + parts[2]`. -/
def parseTimecode (str : String) : Option ℚ :=
  match (splitOnChar ':' (jsTrim str)).map jsNumber with
  | [some a, some b, some c] => some (a * 3600 + b * 60 + c)
  | _ => none

/-- The rejection messages of the timecode handler, tagged with the
violating line. -/
inductive TimecodeReject where
  | noTimecodes
  | invalidFormat (line : String)
  | invalidOrder (line : String)
  | beyondDuration (line : String)
  | segmentTooLong (line : String)
  | finalSegmentTooLong (line : String)
  deriving DecidableEq

/-- The validation loop of the timecode handler (lines 142–169): for
each line in order — format, strict ordering (previous cut defaulting
to `0`), range (`< duration`), gap (`≤ 19` minutes) — and, after the
loop, the final gap from the last cut to the end of file.  `acc`
collects accepted lines in reverse. -/
def validateTimecodesLoop (duration : ℚ) :
    List String → ℚ → List String → Except TimecodeReject (List String)
  | [], previousTime, acc =>
      if duration - previousTime > MAX_SEGMENT_DURATION_SEC then
        .error (.finalSegmentTooLong (acc.headD ""))
      else .ok acc.reverse
  | tc :: rest, previousTime, acc =>
      match parseTimecode tc with
      | none => .error (.invalidFormat tc)
      | some seconds =>
          if seconds ≤ previousTime then .error (.invalidOrder tc)
          else if seconds ≥ duration then .error (.beyondDuration tc)
          else if seconds - previousTime > MAX_SEGMENT_DURATION_SEC then
            .error (.segmentTooLong tc)
          else validateTimecodesLoop duration rest seconds (tc :: acc)

/-- Lines of the user's message: split on `'\n'`, trimmed, empties
dropped (lines 132–135). -/
def parseMessageLines (text : String) : List String :=
  ((splitOnChar '\n' text).map jsTrim).filter fun l => l ≠ ""

/-- A pending `waitingForTimecodes` session (line 25 and
lines 269–276). -/
structure TcSession where
  filePath : String
  localFilePath : String
  lang : String
  originalMessageId : ℕ
  duration : ℚ
  timestamp : ℕ
  deriving DecidableEq

/-- What the handler replies with. -/
inductive TcReply where
  | rejected (e : TimecodeReject)
  | accepted (splitPoints : List String)
  deriving DecidableEq

/-- Result of handling one message while `AWAITING_TIMECODES`. -/
structure TcOutcome where
  session : Option TcSession
  reply : TcReply
  deletedFiles : List String
  deriving DecidableEq

/-- The `bot.on('message')` timecode handler (lines 121–176), given the
chat's pending session and the message text: every rejection returns
early, leaving the `waitingForTimecodes` entry and the temp files
untouched; acceptance deletes the entry and dispatches with the
validated split points.  (File cleanup happens only later, inside
`executeTranscription`.) -/
def handleTimecodeMessage (state : TcSession) (text : String) : TcOutcome :=
  let timecodes := parseMessageLines text
  if timecodes = [] then ⟨some state, .rejected .noTimecodes, []⟩
  else
    match validateTimecodesLoop state.duration timecodes 0 [] with
    | .error e => ⟨some state, .rejected e, []⟩
    | .ok splitPoints => ⟨none, .accepted splitPoints, []⟩

/-! ## Spec-side auxiliary predicates for corrected claims -/

/-- An integer literal: optional sign then one or more digits. -/
def isIntLiteral (s : String) : Bool :=
  let cs := s.data
  let cs := if cs.head? = some '-' ∨ cs.head? = some '+' then cs.tail else cs
  !cs.isEmpty && cs.all Char.isDigit

/-- Spec side (claim C7's wording): the line parses as three
colon-separated integers. -/
def isThreeColonIntegers (s : String) : Bool :=
  match splitOnChar ':' (jsTrim s) with
  | [a, b, c] => isIntLiteral a && isIntLiteral b && isIntLiteral c
  | _ => false

/-! ## Proof-auxiliary definitions -/

/-- Simulation relation between the code-side assembler state and the
spec-side state: the transcript built so far renders the emitted lines;
the last word end times agree; and the open line (if any) matches the
code's `currentLine` and `currentLineStartTime`. -/
def StateRel (timeOffset : ℚ) (st : LineState) (s : SpecState) : Prop :=
  st.formattedTranscript = renderLines timeOffset s.lines ∧
  st.lastWordEndTime = s.lastEnd ∧
  ((s.cur = none ∧ st.currentLine = "") ∨
   (∃ l, s.cur = some l ∧ st.currentLine = l.text ∧
     st.currentLineStartTime = some l.startTime ∧ l.text ≠ ""))

/-- A spec line originates from the given word: it is stamped with the
word's start time and its text begins with that word. -/
def lineFromWord (w : WordTok) (l : SpecLine) : Prop :=
  l.startTime = w.startSeconds ∧ ∃ r, l.text = w.word ++ " " ++ r

end TranscribeBot

namespace TranscribeBot

/-! # Theorems -/

/-! ## String helper lemmas -/

theorem str_empty_append (s : String) : "" ++ s = s := by
  apply String.ext
  simp [String.data_append]

theorem str_append_ne_empty (a : String) : a ++ " " ≠ "" := by
  intro h
  have h2 := congrArg String.length h
  rw [String.length_append] at h2
  have e1 : (" " : String).length = 1 := rfl
  have e2 : ("" : String).length = 0 := rfl
  omega

theorem str_append_empty (s : String) : s ++ "" = s := by
  apply String.ext
  simp [String.data_append]

theorem str_length_pos_of_ne (a : String) (h : a ≠ "") : 0 < a.length := by
  rcases a with ⟨cs⟩
  cases cs with
  | nil => exact absurd rfl h
  | cons c cs => simp [String.length]

/-! ## Rendering lemmas -/

theorem renderLines_append (timeOffset : ℚ) (xs ys : List SpecLine) :
    renderLines timeOffset (xs ++ ys) =
      renderLines timeOffset xs ++ renderLines timeOffset ys := by
  induction xs with
  | nil => simp [renderLines, str_empty_append]
  | cons l ls ih =>
      show lineRender timeOffset l ++ renderLines timeOffset (ls ++ ys) = _
      rw [ih]
      show _ = lineRender timeOffset l ++ renderLines timeOffset ls ++ renderLines timeOffset ys
      rw [String.append_assoc]

/-! ## The bridge: the code's word loop refines the spec-side lines -/

theorem silence_threshold_eq (hasP : Bool) (gap : ℚ) :
    (if hasP then decide (gap > 5) else decide (gap > 1)) =
      decide (gap > specThreshold hasP) := by
  cases hasP <;> simp [specThreshold]

theorem wordStep_rel (hasP : Bool) (timeOffset : ℚ) (st : LineState)
    (s : SpecState) (w : WordTok) (isFirst isLast : Bool)
    (h : StateRel timeOffset st s) :
    StateRel timeOffset (wordStep hasP timeOffset st w isFirst isLast)
      (specStep hasP s w isFirst isLast) := by
  obtain ⟨hout, hend, hcur⟩ := h
  obtain ⟨out, line, startT, lastE⟩ := st
  obtain ⟨lines, cur, lastS⟩ := s
  simp only at hout hend
  rcases hcur with ⟨hnone, hline⟩ | ⟨l, hsome, hline, hstart, hne⟩
  · -- no open line
    simp only at hnone hline
    subst hnone hline hout hend
    simp [wordStep, specStep, str_empty_append]
    simp only [specFlushCond, isSentenceEnd, isComma, String.length_append,
      Bool.or_eq_true, Bool.and_eq_true, decide_eq_true_eq]
    split_ifs with hf
    · exact ⟨by simp [renderLines_append, renderLines, lineRender, str_append_empty,
          String.append_assoc], rfl, Or.inl ⟨rfl, rfl⟩⟩
    · exact ⟨rfl, rfl, Or.inr ⟨⟨w.startSeconds, w.word ++ " "⟩, rfl, rfl, rfl,
        str_append_ne_empty _⟩⟩
  · -- an open line l
    simp only at hsome hline hstart
    subst hsome hline hstart hout hend
    have hlen : (0 < l.text.length) := str_length_pos_of_ne _ hne
    by_cases hsp : isFirst = false ∧ specThreshold hasP < w.startSeconds - lastE
    · simp [wordStep, specStep, hne, hlen, silence_threshold_eq, hsp, str_empty_append]
      simp only [specFlushCond, isSentenceEnd, isComma, String.length_append,
        Bool.or_eq_true, Bool.and_eq_true, decide_eq_true_eq]
      split_ifs with hf
      · exact ⟨by simp [renderLines_append, renderLines, lineRender, str_append_empty,
            String.append_assoc], rfl, Or.inl ⟨rfl, rfl⟩⟩
      · exact ⟨by simp [renderLines_append, renderLines, lineRender, str_append_empty,
            String.append_assoc], rfl, Or.inr ⟨⟨w.startSeconds, w.word ++ " "⟩, rfl, rfl, rfl,
          str_append_ne_empty _⟩⟩
    · simp [wordStep, specStep, hne, hlen, silence_threshold_eq, hsp]
      simp only [specFlushCond, isSentenceEnd, isComma, String.length_append,
        Bool.or_eq_true, Bool.and_eq_true, decide_eq_true_eq]
      split_ifs with hf
      · exact ⟨by simp [renderLines_append, renderLines, lineRender, str_append_empty,
            String.append_assoc], rfl, Or.inl ⟨rfl, rfl⟩⟩
      · exact ⟨rfl, rfl, Or.inr ⟨⟨l.startTime, l.text ++ w.word ++ " "⟩, rfl, rfl, rfl,
          str_append_ne_empty _⟩⟩

theorem wordsLoop_rel (hasP : Bool) (timeOffset : ℚ) :
    ∀ (ws : List WordTok) (i : ℕ) (st : LineState) (s : SpecState),
      StateRel timeOffset st s →
      StateRel timeOffset (wordsLoop hasP timeOffset st i ws) (specLoop hasP s i ws) := by
  intro ws
  induction ws with
  | nil => intro i st s h; exact h
  | cons w rest ih =>
      intro i st s h
      simp only [wordsLoop, specLoop]
      exact ih (i + 1) _ _ (wordStep_rel hasP timeOffset st s w (i == 0) rest.isEmpty h)

theorem smartFormat_renders (timeOffset : ℚ) (ws : List WordTok) :
    smartFormat timeOffset ws =
      renderLines timeOffset (specLines (hasPunctuationOf ws) ws) := by
  have h := wordsLoop_rel (hasPunctuationOf ws) timeOffset ws 0
    ⟨"", "", none, 0⟩ ⟨[], none, 0⟩ ⟨rfl, rfl, Or.inl ⟨rfl, rfl⟩⟩
  exact h.1

/-! ## Origin of each emitted line: its first word -/

theorem lineFromWord_new (w : WordTok) :
    lineFromWord w ⟨w.startSeconds, w.word ++ " "⟩ :=
  ⟨rfl, "", (str_append_empty _).symm⟩

theorem lineFromWord_extend (w0 : WordTok) (l0 : SpecLine) (t : String)
    (h : lineFromWord w0 l0) :
    lineFromWord w0 ⟨l0.startTime, l0.text ++ t ++ " "⟩ := by
  obtain ⟨h1, r, h2⟩ := h
  exact ⟨h1, r ++ t ++ " ", by simp [h2, String.append_assoc]⟩

theorem specStep_origin (hasP : Bool) (P : WordTok → Prop) (s : SpecState)
    (w : WordTok) (isFirst isLast : Bool) (hP : P w)
    (hlines : ∀ l ∈ s.lines, ∃ w0, P w0 ∧ lineFromWord w0 l)
    (hcur : ∀ l, s.cur = some l → ∃ w0, P w0 ∧ lineFromWord w0 l) :
    (∀ l ∈ (specStep hasP s w isFirst isLast).lines, ∃ w0, P w0 ∧ lineFromWord w0 l) ∧
    (∀ l, (specStep hasP s w isFirst isLast).cur = some l →
      ∃ w0, P w0 ∧ lineFromWord w0 l) := by
  obtain ⟨lines, cur, lastE⟩ := s
  cases cur with
  | none =>
      simp only [specStep]
      split_ifs with hf
      · refine ⟨?_, by simp⟩
        intro l hl
        rcases List.mem_append.mp hl with hl | hl
        · exact hlines l hl
        · simp at hl
          exact ⟨w, hP, hl ▸ lineFromWord_new w⟩
      · refine ⟨fun l hl => hlines l hl, ?_⟩
        intro l hl
        simp at hl
        exact ⟨w, hP, hl ▸ lineFromWord_new w⟩
  | some l0 =>
      have hl0 := hcur l0 rfl
      obtain ⟨w0, hw0, hfrom⟩ := hl0
      simp only [specStep]
      split_ifs with hs hf hf
      · refine ⟨?_, by simp⟩
        intro l hl
        rcases List.mem_append.mp hl with hl | hl
        · exact hlines l hl
        · simp at hl
          rcases hl with hl | hl
          · exact ⟨w0, hw0, hl ▸ ⟨hfrom.1, hfrom.2⟩⟩
          · exact ⟨w, hP, hl ▸ lineFromWord_new w⟩
      · refine ⟨?_, ?_⟩
        · intro l hl
          rcases List.mem_append.mp hl with hl | hl
          · exact hlines l hl
          · simp at hl
            exact ⟨w0, hw0, hl ▸ ⟨hfrom.1, hfrom.2⟩⟩
        · intro l hl
          simp at hl
          exact ⟨w, hP, hl ▸ lineFromWord_new w⟩
      · refine ⟨?_, by simp⟩
        intro l hl
        rcases List.mem_append.mp hl with hl | hl
        · exact hlines l hl
        · simp at hl
          exact ⟨w0, hw0, hl ▸ lineFromWord_extend w0 l0 w.word hfrom⟩
      · refine ⟨fun l hl => hlines l hl, ?_⟩
        intro l hl
        simp at hl
        exact ⟨w0, hw0, hl ▸ lineFromWord_extend w0 l0 w.word hfrom⟩

theorem specLoop_origin (hasP : Bool) (P : WordTok → Prop) :
    ∀ (ws : List WordTok) (i : ℕ) (s : SpecState),
      (∀ w ∈ ws, P w) →
      (∀ l ∈ s.lines, ∃ w0, P w0 ∧ lineFromWord w0 l) →
      (∀ l, s.cur = some l → ∃ w0, P w0 ∧ lineFromWord w0 l) →
      ∀ l ∈ (specLoop hasP s i ws).lines, ∃ w0, P w0 ∧ lineFromWord w0 l := by
  intro ws
  induction ws with
  | nil => intro i s _ hlines _ l hl; exact hlines l hl
  | cons w rest ih =>
      intro i s hws hlines hcur l hl
      have hstep := specStep_origin hasP P s w (i == 0) rest.isEmpty
        (hws w (List.mem_cons_self w rest)) hlines hcur
      exact ih (i + 1) _ (fun w0 hw0 => hws w0 (List.mem_cons_of_mem w hw0))
        hstep.1 hstep.2 l hl

theorem specLines_origin (hasP : Bool) (ws : List WordTok) :
    ∀ l ∈ specLines hasP ws, ∃ w0 ∈ ws, lineFromWord w0 l := by
  intro l hl
  have h := specLoop_origin hasP (fun w0 => w0 ∈ ws) ws 0 ⟨[], none, 0⟩
    (fun w0 hw0 => hw0) (by simp) (by simp) l hl
  obtain ⟨w0, hw0, hfrom⟩ := h
  exact ⟨w0, hw0, hfrom⟩

/-! ## Arithmetic of `formatTime` -/

theorem rat_floor_eq (q : ℚ) : Rat.floor q = ⌊q⌋ := rfl

theorem floor_div_int_sixty (a : ℚ) : ⌊a / 60⌋ = ⌊a⌋ / 60 := by
  have hfl : (⌊a⌋ : ℚ) ≤ a := Int.floor_le a
  have hfu : a < ⌊a⌋ + 1 := Int.lt_floor_add_one a
  have hdm : 60 * (⌊a⌋ / 60) + ⌊a⌋ % 60 = ⌊a⌋ := Int.ediv_add_emod ⌊a⌋ 60
  have hr0 : 0 ≤ ⌊a⌋ % 60 := Int.emod_nonneg _ (by norm_num)
  have hr1 : ⌊a⌋ % 60 < 60 := Int.emod_lt_of_pos _ (by norm_num)
  have key1 : (60 : ℤ) * (⌊a⌋ / 60) ≤ ⌊a⌋ := by omega
  have key2 : ⌊a⌋ + 1 ≤ 60 * (⌊a⌋ / 60) + 60 := by omega
  rw [Int.floor_eq_iff]
  constructor
  · rw [le_div_iff₀ (by norm_num : (0:ℚ) < 60)]
    calc (↑(⌊a⌋ / 60) : ℚ) * 60 = ((60 * (⌊a⌋ / 60) : ℤ) : ℚ) := by push_cast; ring
    _ ≤ (⌊a⌋ : ℚ) := by exact_mod_cast key1
    _ ≤ a := hfl
  · rw [div_lt_iff₀ (by norm_num : (0:ℚ) < 60)]
    calc a < ⌊a⌋ + 1 := hfu
    _ = ((⌊a⌋ + 1 : ℤ) : ℚ) := by push_cast; ring
    _ ≤ ((60 * (⌊a⌋ / 60) + 60 : ℤ) : ℚ) := by exact_mod_cast key2
    _ = (↑(⌊a⌋ / 60) + 1) * 60 := by push_cast; ring

theorem jsMod_floor_sixty (a : ℚ) (h : 0 ≤ a) : ⌊jsMod a 60⌋ = ⌊a⌋ % 60 := by
  have hq : 0 ≤ a / 60 := by positivity
  rw [jsMod, ratTrunc, if_pos hq, rat_floor_eq]
  have hcast : (60 : ℚ) * (⌊a / 60⌋ : ℚ) = ((60 * ⌊a / 60⌋ : ℤ) : ℚ) := by push_cast; ring
  rw [hcast, Int.floor_sub_int, floor_div_int_sixty]
  omega

theorem formatTime_eq (t timeOffset : ℚ) (h : 0 ≤ t + timeOffset) :
    formatTime t timeOffset =
      "[" ++ padStart2 (intToString ⌊(t + timeOffset) / 60⌋) ++ ":" ++
        padStart2 (intToString (⌊t + timeOffset⌋ % 60)) ++ "]" := by
  show "[" ++ padStart2 (intToString (Rat.floor ((t + timeOffset) / 60))) ++ ":" ++
      padStart2 (intToString (Rat.floor (jsMod (t + timeOffset) 60))) ++ "]" = _
  rw [rat_floor_eq, rat_floor_eq, jsMod_floor_sixty _ h]

/-! ## The first emitted line of a segment -/

theorem specStep_none_shape (hasP : Bool) (s : SpecState) (w : WordTok)
    (f isLast : Bool) (hcur : s.cur = none) :
    ((specStep hasP s w f isLast).lines =
        s.lines ++ [⟨w.startSeconds, w.word ++ " "⟩] ∧
      (specStep hasP s w f isLast).cur = none) ∨
    (isLast = false ∧ (specStep hasP s w f isLast).lines = s.lines ∧
      (specStep hasP s w f isLast).cur = some ⟨w.startSeconds, w.word ++ " "⟩) := by
  obtain ⟨lines, cur, lastE⟩ := s
  simp only at hcur
  subst hcur
  simp only [specStep]
  split_ifs with hf
  · exact Or.inl ⟨rfl, rfl⟩
  · refine Or.inr ⟨?_, rfl, rfl⟩
    cases isLast with
    | false => rfl
    | true => exact absurd (by simp [specFlushCond]) hf

theorem specStep_some_shape (hasP : Bool) (s : SpecState) (w : WordTok)
    (f isLast : Bool) (l0 : SpecLine) (hcur : s.cur = some l0) :
    (∃ t δ, (∃ r, t = l0.text ++ r) ∧
      (specStep hasP s w f isLast).lines =
        s.lines ++ (⟨l0.startTime, t⟩ : SpecLine) :: δ) ∨
    (isLast = false ∧ (specStep hasP s w f isLast).lines = s.lines ∧
      (specStep hasP s w f isLast).cur =
        some ⟨l0.startTime, l0.text ++ w.word ++ " "⟩) := by
  obtain ⟨lines, cur, lastE⟩ := s
  simp only at hcur
  subst hcur
  simp only [specStep]
  split_ifs with hs hf hf
  · exact Or.inl ⟨l0.text, [⟨w.startSeconds, w.word ++ " "⟩],
      ⟨"", (str_append_empty _).symm⟩, by simp⟩
  · exact Or.inl ⟨l0.text, [], ⟨"", (str_append_empty _).symm⟩, by simp⟩
  · exact Or.inl ⟨l0.text ++ w.word ++ " ", [],
      ⟨w.word ++ " ", by rw [String.append_assoc]⟩, by simp⟩
  · refine Or.inr ⟨?_, rfl, rfl⟩
    cases isLast with
    | false => rfl
    | true => exact absurd (by simp [specFlushCond]) hf

theorem specLoop_lines_mono (hasP : Bool) :
    ∀ (ws : List WordTok) (i : ℕ) (s : SpecState),
      ∃ δ, (specLoop hasP s i ws).lines = s.lines ++ δ := by
  intro ws
  induction ws with
  | nil => intro i s; exact ⟨[], (List.append_nil _).symm⟩
  | cons w rest ih =>
      intro i s
      obtain ⟨δ2, h2⟩ := ih (i + 1) (specStep hasP s w (i == 0) rest.isEmpty)
      have hδ1 : ∃ δ1, (specStep hasP s w (i == 0) rest.isEmpty).lines = s.lines ++ δ1 := by
        rcases hc : s.cur with _ | l0
        · rcases specStep_none_shape hasP s w (i == 0) rest.isEmpty hc with ⟨h, _⟩ | ⟨_, h, _⟩
          · exact ⟨_, h⟩
          · exact ⟨[], by rw [h, List.append_nil]⟩
        · rcases specStep_some_shape hasP s w (i == 0) rest.isEmpty l0 hc with
            ⟨t, δ, _, h⟩ | ⟨_, h, _⟩
          · exact ⟨_, h⟩
          · exact ⟨[], by rw [h, List.append_nil]⟩
      obtain ⟨δ1, h1⟩ := hδ1
      exact ⟨δ1 ++ δ2, by
        show (specLoop hasP (specStep hasP s w (i == 0) rest.isEmpty) (i + 1) rest).lines = _
        rw [h2, h1, List.append_assoc]⟩

theorem specLoop_openline_head (hasP : Bool) :
    ∀ (ws : List WordTok) (w : WordTok) (i : ℕ) (s : SpecState) (l0 : SpecLine),
      s.lines = [] → s.cur = some l0 →
      ∃ t δ, (specLoop hasP s i (w :: ws)).lines =
          (⟨l0.startTime, t⟩ : SpecLine) :: δ ∧ ∃ r, t = l0.text ++ r := by
  intro ws
  induction ws with
  | nil =>
      intro w i s l0 hlines hcur
      rcases specStep_some_shape hasP s w (i == 0) true l0 hcur with
        ⟨t, δ, hr, h⟩ | ⟨hfalse, _, _⟩
      · exact ⟨t, δ, by
          show (specLoop hasP (specStep hasP s w (i == 0) [].isEmpty) (i + 1) []).lines = _
          simp only [specLoop]
          rw [show ([] : List WordTok).isEmpty = true from rfl, h, hlines, List.nil_append], hr⟩
      · exact absurd hfalse (by simp)
  | cons w2 rest ih =>
      intro w i s l0 hlines hcur
      have hlast : (w2 :: rest).isEmpty = false := rfl
      rcases specStep_some_shape hasP s w (i == 0) ((w2 :: rest).isEmpty) l0 hcur with
        ⟨t, δ, hr, h⟩ | ⟨_, h1, h2⟩
      · obtain ⟨δ2, hmono⟩ := specLoop_lines_mono hasP (w2 :: rest) (i + 1)
          (specStep hasP s w (i == 0) ((w2 :: rest).isEmpty))
        refine ⟨t, δ ++ δ2, ?_, hr⟩
        show (specLoop hasP (specStep hasP s w (i == 0) ((w2 :: rest).isEmpty)) (i + 1)
            (w2 :: rest)).lines = _
        rw [hmono, h, hlines, List.nil_append]
        simp
      · obtain ⟨t2, δ2, hfin, r2, hr2⟩ := ih w2 (i + 1)
          (specStep hasP s w (i == 0) ((w2 :: rest).isEmpty))
          ⟨l0.startTime, l0.text ++ w.word ++ " "⟩ (by rw [h1, hlines]) h2
        refine ⟨t2, δ2, hfin, w.word ++ " " ++ r2, ?_⟩
        rw [hr2]
        simp [String.append_assoc]

theorem specLines_head (hasP : Bool) (w0 : WordTok) (ws : List WordTok) :
    ∃ t δ, specLines hasP (w0 :: ws) =
        (⟨w0.startSeconds, t⟩ : SpecLine) :: δ ∧ ∃ r, t = w0.word ++ " " ++ r := by
  unfold specLines
  rcases specStep_none_shape hasP ⟨[], none, 0⟩ w0 (0 == 0) ws.isEmpty rfl with
    ⟨h1, _⟩ | ⟨hfalse, h1, h2⟩
  · obtain ⟨δ2, hmono⟩ := specLoop_lines_mono hasP ws 1
      (specStep hasP ⟨[], none, 0⟩ w0 (0 == 0) ws.isEmpty)
    refine ⟨w0.word ++ " ", δ2, ?_, "", (str_append_empty _).symm⟩
    show (specLoop hasP (specStep hasP ⟨[], none, 0⟩ w0 (0 == 0) ws.isEmpty) 1 ws).lines = _
    rw [hmono, h1]
    simp
  · cases ws with
    | nil => exact absurd hfalse (by simp)
    | cons w1 rest =>
        obtain ⟨t, δ, hfin, r, hr⟩ := specLoop_openline_head hasP rest w1 1
          (specStep hasP ⟨[], none, 0⟩ w0 (0 == 0) (w1 :: rest).isEmpty)
          ⟨w0.startSeconds, w0.word ++ " "⟩ h1 h2
        exact ⟨t, δ, hfin, r, hr⟩

/-! ## Claim C1 -/

/-- C1: for every segment's word-token sequence, the code's
line-breaking (`smartFormat`, the smart-parsing loop of
`transcribePart`) produces exactly the lines of the claim's heuristic
(`specLines`): silence forces a break only above the
punctuation-dependent threshold (5.0 s when any word of the segment
contains `.`, `!` or `?`; 1.0 s otherwise), and, independent of
silence, a line is flushed exactly when the word ends with `.`, `!` or
`?`, or ends with a comma on a line longer than 100 characters, or the
line exceeds 150 characters, or the word is the last of the segment. -/
theorem c1_line_break_heuristic :
    ∀ (timeOffset : ℚ) (ws : List WordTok),
      smartFormat timeOffset ws =
        renderLines timeOffset (specLines (hasPunctuationOf ws) ws) ∧
      (hasPunctuationOf ws = true ↔ specHasPunctuation ws) := by
  intro timeOffset ws
  refine ⟨smartFormat_renders timeOffset ws, ?_⟩
  simp [hasPunctuationOf, specHasPunctuation, List.any_eq_true, String.any, or_assoc]

/-! ## Claim C2 -/

unseal Rat.add Rat.mul Rat.inv Rat.sub Rat.ofScientific in
/-- C2: every emitted line is rendered as
`formatTime lineStart offset` followed by its text, where `lineStart`
is the start time of the line's first word; `formatTime` renders
`segment offset + line start` as `[MM:SS]` with both fields zero-padded
to two digits, minutes `⌊total/60⌋` unbounded (no hour rollover) and
seconds `⌊total⌋ % 60 ∈ [0, 60)`; in particular offset `1140` with word
start `5.0` gives `[19:05]` (and `7200`/`5` gives `[120:05]`). -/
theorem c2_line_timestamps :
    (∀ (timeOffset : ℚ) (ws : List WordTok),
      smartFormat timeOffset ws =
        renderLines timeOffset (specLines (hasPunctuationOf ws) ws)) ∧
    (∀ (hasP : Bool) (ws : List WordTok) (l : SpecLine), l ∈ specLines hasP ws →
      ∃ w0 ∈ ws, l.startTime = w0.startSeconds ∧ ∃ r, l.text = w0.word ++ " " ++ r) ∧
    (∀ t timeOffset : ℚ, 0 ≤ t + timeOffset →
      formatTime t timeOffset =
        "[" ++ padStart2 (intToString ⌊(t + timeOffset) / 60⌋) ++ ":" ++
          padStart2 (intToString (⌊t + timeOffset⌋ % 60)) ++ "]" ∧
      0 ≤ ⌊t + timeOffset⌋ % 60 ∧ ⌊t + timeOffset⌋ % 60 < 60) ∧
    formatTime 5 1140 = "[19:05]" ∧ formatTime 5 7200 = "[120:05]" := by
  refine ⟨smartFormat_renders, ?_, ?_, ?_, ?_⟩
  · intro hasP ws l hl
    obtain ⟨w0, hw0, h1, h2⟩ := specLines_origin hasP ws l hl
    exact ⟨w0, hw0, h1, h2⟩
  · intro t timeOffset h
    refine ⟨formatTime_eq t timeOffset h, Int.emod_nonneg _ (by norm_num),
      Int.emod_lt_of_pos _ (by norm_num)⟩
  · decide
  · decide

unseal Rat.add Rat.mul Rat.inv Rat.sub Rat.ofScientific in
/-- Witness for C2 at concrete inputs. -/
theorem c2_line_timestamps_witness :
    formatTime 5 1140 =
      "[" ++ padStart2 (intToString ⌊((5 : ℚ) + 1140) / 60⌋) ++ ":" ++
        padStart2 (intToString (⌊(5 : ℚ) + 1140⌋ % 60)) ++ "]" ∧
    (∃ w0 ∈ [(⟨"hi.", 2, 3⟩ : WordTok)],
      ((⟨2, "hi. "⟩ : SpecLine)).startTime = w0.startSeconds ∧
      ∃ r, ((⟨2, "hi. "⟩ : SpecLine)).text = w0.word ++ " " ++ r) := by
  constructor
  · exact (c2_line_timestamps.2.2.1 5 1140 (by norm_num)).1
  · have hmem : (⟨2, "hi. "⟩ : SpecLine) ∈
        specLines (hasPunctuationOf [⟨"hi.", 2, 3⟩]) [⟨"hi.", 2, 3⟩] := by decide
    exact c2_line_timestamps.2.1 (hasPunctuationOf [⟨"hi.", 2, 3⟩]) [⟨"hi.", 2, 3⟩]
      ⟨2, "hi. "⟩ hmem

/-! ## Claim C10 -/

unseal Rat.add Rat.mul Rat.inv Rat.sub Rat.ofScientific in
/-- C10: a word token whose `startOffset` (or `endOffset`) field is
absent gets time `0` (`x || '0s'` then `parseSeconds`); the assembler
is total over such inputs (conversion succeeds whenever every present
offset parses); and a segment whose first word lacks `startOffset`
opens with a line stamped `formatTime 0 offset`, which is exactly the
segment's offset formatted as `[MM:SS]`. -/
theorem c10_missing_offsets_default_zero :
    (∀ w : WordObj, w.startOffset = none → wordStartSeconds w = some 0) ∧
    (∀ w : WordObj, w.endOffset = none → wordEndSeconds w = some 0) ∧
    (∀ ws : List WordObj,
      (∀ w ∈ ws, (∀ s, w.startOffset = some s → ∃ q, parseSeconds s = some q) ∧
        (∀ s, w.endOffset = some s → ∃ q, parseSeconds s = some q)) →
      ∃ toks, toWordToks ws = some toks ∧ toks.length = ws.length) ∧
    (∀ (timeOffset : ℚ) (w0 : WordObj) (ws : List WordObj) (t0 : WordTok)
        (toks : List WordTok),
      toWordToks (w0 :: ws) = some (t0 :: toks) → w0.startOffset = none →
      ∃ rest, smartFormat timeOffset (t0 :: toks) =
        formatTime 0 timeOffset ++ " " ++ rest) ∧
    (∀ timeOffset : ℚ, formatTime 0 timeOffset = formatTime timeOffset 0) := by
  have hzero : parseSeconds "0s" = some 0 := by decide
  refine ⟨?_, ?_, ?_, ?_, ?_⟩
  · intro w h
    simp [wordStartSeconds, jsOrZeroS, h, hzero]
  · intro w h
    simp [wordEndSeconds, jsOrZeroS, h, hzero]
  · intro ws hws
    induction ws with
    | nil => exact ⟨[], rfl, rfl⟩
    | cons w rest ih =>
        obtain ⟨toks, htoks, hlen⟩ := ih fun w0 hw0 => hws w0 (List.mem_cons_of_mem w hw0)
        have hw := hws w (List.mem_cons_self w rest)
        have hstart : ∃ q, wordStartSeconds w = some q := by
          rcases hs : w.startOffset with _ | s
          · exact ⟨0, by simp [wordStartSeconds, jsOrZeroS, hs, hzero]⟩
          · rcases eq_or_ne s "" with hse | hse
            · exact ⟨0, by simp [wordStartSeconds, jsOrZeroS, hs, hse, hzero]⟩
            · obtain ⟨q, hq⟩ := hw.1 s hs
              exact ⟨q, by simp [wordStartSeconds, jsOrZeroS, hs, hse, hq]⟩
        have hend : ∃ q, wordEndSeconds w = some q := by
          rcases hs : w.endOffset with _ | s
          · exact ⟨0, by simp [wordEndSeconds, jsOrZeroS, hs, hzero]⟩
          · rcases eq_or_ne s "" with hse | hse
            · exact ⟨0, by simp [wordEndSeconds, jsOrZeroS, hs, hse, hzero]⟩
            · obtain ⟨q, hq⟩ := hw.2 s hs
              exact ⟨q, by simp [wordEndSeconds, jsOrZeroS, hs, hse, hq]⟩
        obtain ⟨qs, hqs⟩ := hstart
        obtain ⟨qe, hqe⟩ := hend
        refine ⟨⟨w.word, qs, qe⟩ :: toks, ?_, by simp [hlen]⟩
        simp [toWordToks, toWordTok, hqs, hqe, htoks]
  · intro timeOffset w0 ws t0 toks htoks hw0
    have ht0 : toWordTok w0 = some t0 := by
      simp only [toWordToks] at htoks
      rcases h1 : toWordTok w0 with _ | t <;> rcases h2 : toWordToks ws with _ | ts <;>
        rw [h1, h2] at htoks <;> simp_all
    have hstart0 : t0.startSeconds = 0 := by
      simp only [toWordTok, wordStartSeconds, jsOrZeroS, hw0, hzero] at ht0
      rcases h2 : wordEndSeconds w0 with _ | qe <;> rw [h2] at ht0 <;> simp_all
      exact ht0.symm ▸ rfl
    obtain ⟨t, δ, hhead, r, hr⟩ := specLines_head (hasPunctuationOf (t0 :: toks)) t0 toks
    refine ⟨jsTrim t ++ "
" ++
      renderLines timeOffset δ, ?_⟩
    rw [smartFormat_renders, hhead]
    simp [renderLines, lineRender, hstart0, String.append_assoc]
  · intro timeOffset
    show "[" ++ padStart2 (intToString (Rat.floor ((0 + timeOffset) / 60))) ++ ":" ++
        padStart2 (intToString (Rat.floor (jsMod (0 + timeOffset) 60))) ++ "]" =
      "[" ++ padStart2 (intToString (Rat.floor ((timeOffset + 0) / 60))) ++ ":" ++
        padStart2 (intToString (Rat.floor (jsMod (timeOffset + 0) 60))) ++ "]"
    rw [zero_add, add_zero]

unseal Rat.add Rat.mul Rat.inv Rat.sub Rat.ofScientific in
/-- Witness for C10 at concrete inputs. -/
theorem c10_missing_offsets_default_zero_witness :
    wordStartSeconds ⟨"hello", none, some "1s"⟩ = some 0 ∧
    (∃ toks, toWordToks [⟨"hello", none, some "1s"⟩] = some toks ∧
      toks.length = [(⟨"hello", none, some "1s"⟩ : WordObj)].length) ∧
    (∃ rest, smartFormat 60 [⟨"hello", 0, 1⟩] = formatTime 0 60 ++ " " ++ rest) := by
  have h1 := c10_missing_offsets_default_zero.1 ⟨"hello", none, some "1s"⟩ rfl
  have h3 := c10_missing_offsets_default_zero.2.2.1 [⟨"hello", none, some "1s"⟩]
    (by
      intro w hw
      simp at hw
      subst hw
      exact ⟨fun s hs => by simp_all, fun s hs => by
        refine ⟨1, ?_⟩
        have : s = "1s" := by simp_all
        subst this
        decide⟩)
  have h4 := c10_missing_offsets_default_zero.2.2.2.1 60 ⟨"hello", none, some "1s"⟩ []
    ⟨"hello", 0, 1⟩ [] (by decide) rfl
  exact ⟨h1, h3, h4⟩

/-! ## Claim C3: the quota retry loop -/

theorem submitLoop_submissions_le (env : ℕ → RecogOutcome) :
    ∀ (r ix : ℕ), (submitLoop env r ix).submissions ≤ r + 1 := by
  intro r
  induction r with
  | zero =>
      intro ix
      cases henv : env ix <;> simp [submitLoop, henv]
  | succ r ih =>
      intro ix
      cases henv : env ix <;> simp [submitLoop, henv]
      exact Nat.le_trans (ih (ix + 1)) (by omega)

theorem submitLoop_sleeps_const (env : ℕ → RecogOutcome) :
    ∀ (r ix : ℕ), ∀ d ∈ (submitLoop env r ix).sleeps, d = 60000 := by
  intro r
  induction r with
  | zero =>
      intro ix d hd
      cases henv : env ix <;> simp [submitLoop, henv] at hd
  | succ r ih =>
      intro ix d hd
      cases henv : env ix <;> simp [submitLoop, henv] at hd
      rcases hd with hd | hd
      · exact hd
      · exact ih (ix + 1) d hd

theorem submitLoop_sleeps_length (env : ℕ → RecogOutcome) :
    ∀ (r ix : ℕ),
      (submitLoop env r ix).sleeps.length = (submitLoop env r ix).submissions - 1 := by
  intro r
  induction r with
  | zero =>
      intro ix
      cases henv : env ix <;> simp [submitLoop, henv]
  | succ r ih =>
      intro ix
      cases henv : env ix <;> simp [submitLoop, henv]
      have h2 := ih (ix + 1)
      have h3 : 1 ≤ (submitLoop env r (ix + 1)).submissions := by
        rcases r with _ | r <;> cases henv2 : env (ix + 1) <;>
          simp [submitLoop, henv2]
      omega

theorem submitLoop_quota_before_last (env : ℕ → RecogOutcome) :
    ∀ (r ix j : ℕ), j + 1 < (submitLoop env r ix).submissions →
      env (ix + j) = .quota := by
  intro r
  induction r with
  | zero =>
      intro ix j hj
      cases henv : env ix <;> simp [submitLoop, henv] at hj
  | succ r ih =>
      intro ix j hj
      cases henv : env ix <;> simp [submitLoop, henv] at hj
      cases j with
      | zero => simpa using henv
      | succ j2 =>
          have := ih (ix + 1) j2 (by omega)
          simpa [Nat.add_assoc, Nat.add_comm 1 j2] using this

theorem submitEvents_no_upload (r : SubmitResult) :
    Ev.upload ∉ submitEvents r := by
  simp [submitEvents, List.mem_flatMap]

theorem trace_upload_count (env : PartEnv) (timeOffset : ℚ) :
    ((transcribePartTrace env timeOffset).1.count Ev.upload) = 1 := by
  have hsub : ∀ r, (submitEvents r).count Ev.upload = 0 :=
    fun r => List.count_eq_zero.mpr (submitEvents_no_upload r)
  unfold transcribePartTrace
  cases h1 : env.uploadOk
  · simp [h1]
  · simp only [h1]
    cases h2 : (submitLoop env.recog 5 0).obtained
    · simp [h2, List.count_cons, hsub]
    · rcases h3 : env.op <;>
        simp [h2, h3, List.count_cons, List.count_append, hsub]

theorem trace_fails_placeholder (env : PartEnv) (timeOffset : ℚ)
    (h : partFails env = true) :
    (transcribePartTrace env timeOffset).2 = errorStr timeOffset := by
  unfold transcribePartTrace
  unfold partFails at h
  cases h1 : env.uploadOk
  · simp [h1]
  · simp only [h1]
    cases h2 : (submitLoop env.recog 5 0).obtained
    · simp [h2]
    · rcases h3 : env.op <;> simp [h1, h2, h3] at h ⊢

/-- Counterexample to C3 as stated: with every submission failing on
quota, the code performs 6 submissions (1 initial + 5 retries), not at
most 5 attempts, and every back-off is exactly 60000 ms — there is no
jitter term in the code. -/
theorem c3_counterexample :
    submitLoop (fun _ => .quota) 5 0 =
      ⟨false, 6, [60000, 60000, 60000, 60000, 60000]⟩ := by
  decide

/-- C3 as amended: only the `batchRecognize` submission is retried
(the upload happens exactly once per segment job); a retry happens only
after a quota-exhaustion outcome; the back-off is a fixed 60000 ms; at
most `remaining + 1` submissions happen (6 from the initial call with
`retries = 0`, i.e. 5 retries); and a segment whose submissions are
exhausted (or that fails in any other way) merely returns the
placeholder string — it does not raise, so sibling segments are
unaffected. -/
theorem c3_retry_policy_amended :
    (∀ (env : ℕ → RecogOutcome) (r ix : ℕ),
      (submitLoop env r ix).submissions ≤ r + 1 ∧
      (∀ d ∈ (submitLoop env r ix).sleeps, d = 60000) ∧
      (submitLoop env r ix).sleeps.length = (submitLoop env r ix).submissions - 1 ∧
      (∀ j, j + 1 < (submitLoop env r ix).submissions → env (ix + j) = .quota)) ∧
    (∀ (env : PartEnv) (timeOffset : ℚ),
      ((transcribePartTrace env timeOffset).1.count Ev.upload) = 1 ∧
      (partFails env = true →
        (transcribePartTrace env timeOffset).2 = errorStr timeOffset)) := by
  exact ⟨fun env r ix =>
    ⟨submitLoop_submissions_le env r ix, submitLoop_sleeps_const env r ix,
      submitLoop_sleeps_length env r ix, submitLoop_quota_before_last env r ix⟩,
    fun env timeOffset =>
      ⟨trace_upload_count env timeOffset, trace_fails_placeholder env timeOffset⟩⟩

unseal Rat.add Rat.mul Rat.inv Rat.sub Rat.ofScientific in
/-- Witness for the amended C3 at a concrete environment. -/
theorem c3_retry_policy_amended_witness :
    (submitLoop (fun _ => .quota) 5 0).submissions ≤ 6 ∧
    (fun _ => RecogOutcome.quota) (0 + 0) = RecogOutcome.quota ∧
    (transcribePartTrace ⟨true, fun _ => .fail, .opFail⟩ 0).2 = errorStr 0 := by
  refine ⟨(c3_retry_policy_amended.1 (fun _ => .quota) 5 0).1, ?_, ?_⟩
  · exact (c3_retry_policy_amended.1 (fun _ => .quota) 5 0).2.2.2 0 (by decide)
  · exact (c3_retry_policy_amended.2 ⟨true, fun _ => .fail, .opFail⟩ 0).2 (by decide)

/-! ## Claim C4: remote blob cleanup -/

theorem submitEvents_no_delete (r : SubmitResult) :
    Ev.deleteAudio ∉ submitEvents r ∧ Ev.deleteResult ∉ submitEvents r := by
  constructor <;> simp [submitEvents, List.mem_flatMap]

/-- Counterexample to C4 as stated: when the recognition submission
fails with a non-quota error after a successful upload, the job ends
with the uploaded audio blob still in remote storage — no delete is
ever issued on that exit path. -/
theorem c4_counterexample :
    (transcribePartTrace ⟨true, fun _ => .fail, .opFail⟩ 0).1 = [Ev.upload, Ev.submit] ∧
    Ev.upload ∈ (transcribePartTrace ⟨true, fun _ => .fail, .opFail⟩ 0).1 ∧
    Ev.deleteAudio ∉ (transcribePartTrace ⟨true, fun _ => .fail, .opFail⟩ 0).1 ∧
    Ev.deleteResult ∉ (transcribePartTrace ⟨true, fun _ => .fail, .opFail⟩ 0).1 := by
  decide

/-- C4 as amended: the two remote blobs are deleted exactly on the path
where the upload, the submission, the operation, the download and
`JSON.parse` all succeed (the deletes precede only the in-memory
formatting); on every failure path after the upload, no delete is
issued and the uploaded blob is orphaned. -/
theorem c4_cleanup_amended :
    ∀ (env : PartEnv) (timeOffset : ℚ),
      (Ev.deleteAudio ∈ (transcribePartTrace env timeOffset).1 ↔
        successThroughParse env) ∧
      (Ev.deleteResult ∈ (transcribePartTrace env timeOffset).1 ↔
        successThroughParse env) := by
  intro env timeOffset
  unfold transcribePartTrace successThroughParse
  cases h1 : env.uploadOk
  · simp [h1, (submitEvents_no_delete _).1, (submitEvents_no_delete _).2]
  · simp only [h1]
    cases h2 : (submitLoop env.recog 5 0).obtained
    · simp [h2, (submitEvents_no_delete _).1, (submitEvents_no_delete _).2]
    · rcases h3 : env.op <;>
        simp [h2, h3, List.mem_append,
          (submitEvents_no_delete _).1, (submitEvents_no_delete _).2]

/-! ## Claim C5: placeholder lines and merge order -/

theorem mergeGo_mod (rs : List String) :
    ∀ (i j : ℕ), i % 4 = j % 4 → mergeGo i rs = mergeGo j rs := by
  induction rs with
  | nil => intro i j _; rfl
  | cons r rest ih =>
      intro i j h
      simp only [mergeGo, h]
      rw [ih (i + 1) (j + 1) (by omega)]

theorem mergeBatches_eq_go : ∀ rs : List String, mergeBatches rs = mergeGo 0 rs := by
  have key : ∀ (n : ℕ) (rs : List String), rs.length ≤ n →
      mergeBatches rs = mergeGo 0 rs := by
    intro n
    induction n with
    | zero =>
        intro rs h
        cases rs with
        | nil => rfl
        | cons a rest => simp at h
    | succ n ih =>
        intro rs h
        match rs with
        | [] => rfl
        | [a] =>
            simp [mergeBatches, joinNL, mergeGo, str_empty_append, str_append_empty]
        | [a, b] =>
            simp [mergeBatches, joinNL, mergeGo, str_empty_append, str_append_empty,
              String.append_assoc]
        | [a, b, c] =>
            simp [mergeBatches, joinNL, mergeGo, str_empty_append, str_append_empty,
              String.append_assoc]
        | a :: b :: c :: d :: rest =>
            have hlen : rest.length ≤ n := by
              simp only [List.length_cons] at h
              omega
            rw [show mergeBatches (a :: b :: c :: d :: rest) =
                joinNL [a, b, c, d] ++ mergeBatches rest from rfl, ih rest hlen]
            rw [mergeGo_mod rest 0 4 (by norm_num)]
            simp [joinNL, mergeGo, str_empty_append, str_append_empty,
              String.append_assoc]
  intro rs
  exact key rs.length rs le_rfl

/-- C5: a terminally failing segment contributes exactly the
placeholder `[Error part: <offset as [MM:SS]>]` at its own position;
every segment's entry is a function of its own environment and offset
only (so a failure does not disturb or block the others); and the
batch merge is the order-preserving concatenation `mergeGo 0` of the
per-segment results (newline-joined inside each batch of four). -/
theorem c5_placeholder_and_merge_order :
    ∀ (envs : ℕ → PartEnv) (offs : List ℚ) (i : ℕ) (hi : i < offs.length),
      partFails (envs i) = true →
      (segmentResults envs offs).length = offs.length ∧
      (segmentResults envs offs).get
          ⟨i, by simpa [segmentResults] using hi⟩ =
        "[Error part: " ++ formatTime 0 (offs.get ⟨i, hi⟩) ++ "]" ∧
      (∀ (j : ℕ) (hj : j < offs.length),
        (segmentResults envs offs).get ⟨j, by simpa [segmentResults] using hj⟩ =
          (transcribePartTrace (envs j) (offs.get ⟨j, hj⟩)).2) ∧
      mergeBatches (segmentResults envs offs) =
        mergeGo 0 (segmentResults envs offs) := by
  intro envs offs i hi hfail
  have hget : ∀ (j : ℕ) (hj : j < offs.length),
      (segmentResults envs offs).get ⟨j, by simpa [segmentResults] using hj⟩ =
        (transcribePartTrace (envs j) (offs.get ⟨j, hj⟩)).2 := by
    intro j hj
    simp [segmentResults, List.get_eq_getElem, List.getElem_map, List.getElem_enum]
  refine ⟨by simp [segmentResults], ?_, hget, mergeBatches_eq_go _⟩
  rw [hget i hi, trace_fails_placeholder (envs i) _ hfail]
  rfl

unseal Rat.add Rat.mul Rat.inv Rat.sub Rat.ofScientific in
/-- Witness for C5 at a concrete job: three segments, the middle one
failing. -/
theorem c5_placeholder_and_merge_order_witness :
    (segmentResults
        (fun j => if j = 1 then ⟨false, fun _ => .ok, .ok []⟩
          else ⟨true, fun _ => .ok, .ok []⟩) [0, 1140, 2280]).length = 3 ∧
    (segmentResults
        (fun j => if j = 1 then ⟨false, fun _ => .ok, .ok []⟩
          else ⟨true, fun _ => .ok, .ok []⟩) [0, 1140, 2280]).get
        ⟨1, by decide⟩ = "[Error part: " ++ formatTime 0 1140 ++ "]" := by
  have h := c5_placeholder_and_merge_order
    (fun j => if j = 1 then ⟨false, fun _ => .ok, .ok []⟩
      else ⟨true, fun _ => .ok, .ok []⟩) [0, 1140, 2280] 1 (by norm_num)
    (by decide)
  exact ⟨h.1, h.2.1⟩

/-! ## Claim C6: the automatic split plan -/

/-- C6: with no explicit cutpoints, a duration at most the 1140 s
threshold gives exactly one segment with offset 0; a longer duration
gives, with the splitter producing `⌈duration / 1140⌉` files per its
fixed-interval contract, a plan of exactly that many segments with
offsets `i * 1140`. -/
theorem c6_auto_split_plan :
    ∀ (duration : ℚ) (k : ℕ),
      (duration ≤ SPLIT_THRESHOLD → autoPlan duration k = [0]) ∧
      (duration > SPLIT_THRESHOLD →
        k = segmentTimeSplitCount duration SPLIT_THRESHOLD →
        (autoPlan duration k).length = (Rat.ceil (duration / SPLIT_THRESHOLD)).toNat ∧
        ∀ (j : ℕ) (hj : j < (autoPlan duration k).length),
          (autoPlan duration k).get ⟨j, hj⟩ = (j : ℚ) * SPLIT_THRESHOLD) := by
  intro duration k
  constructor
  · intro h
    simp [autoPlan, not_lt.mpr h]
  · intro h hk
    have hplan : autoPlan duration k =
        (List.range k).map fun (i : ℕ) => (i : ℚ) * SPLIT_THRESHOLD := by
      unfold autoPlan
      rw [if_pos h]
    refine ⟨?_, ?_⟩
    · rw [hplan, List.length_map, List.length_range, hk]
      rfl
    · intro j hj
      rw [hplan] at hj
      simp only [hplan, List.get_eq_getElem, List.getElem_map, List.getElem_range]

unseal Rat.add Rat.mul Rat.inv Rat.sub Rat.ofScientific in
/-- Witness for C6 at concrete durations 500 (single segment) and 2000
(two segments: `⌈2000/1140⌉ = 2`, offsets 0 and 1140). -/
theorem c6_auto_split_plan_witness :
    autoPlan 500 1 = [0] ∧
    (autoPlan 2000 2).length = (Rat.ceil ((2000 : ℚ) / SPLIT_THRESHOLD)).toNat ∧
    (autoPlan 2000 2).get ⟨1, by decide⟩ = (1 : ℚ) * SPLIT_THRESHOLD := by
  refine ⟨(c6_auto_split_plan 500 1).1 (by norm_num [SPLIT_THRESHOLD]), ?_, ?_⟩
  · exact ((c6_auto_split_plan 2000 2).2 (by norm_num [SPLIT_THRESHOLD]) (by decide)).1
  · exact ((c6_auto_split_plan 2000 2).2 (by norm_num [SPLIT_THRESHOLD]) (by decide)).2
      1 (by decide)

/-! ## Claim C9: no planning validation -/

theorem trace_has_upload (env : PartEnv) (timeOffset : ℚ) :
    Ev.upload ∈ (transcribePartTrace env timeOffset).1 := by
  unfold transcribePartTrace
  cases h1 : env.uploadOk
  · simp [h1]
  · simp only [h1]
    cases h2 : (submitLoop env.recog 5 0).obtained
    · simp [h2]
    · rcases h3 : env.op <;> simp [h2, h3]

unseal Rat.add Rat.mul Rat.inv Rat.sub Rat.ofScientific in
/-- Counterexample to C9 as stated: with `totalDuration = 0` the code
raises no `PlanError` — there is no such validation anywhere — and the
job proceeds to remote work (the upload of the single planned segment
is attempted). -/
theorem c9_counterexample :
    autoPlan 0 1 = [0] ∧
    Ev.upload ∈ (processFileAuto 0 1 (fun _ => ⟨true, fun _ => .ok, .ok []⟩)).1 := by
  constructor
  · decide
  · decide

/-- C9 as amended: the code validates nothing: for any
`duration ≤ 0` the automatic plan is the single segment `[0]` (the
non-split branch) and remote work is attempted — the upload event of
segment 0 occurs unconditionally. -/
theorem c9_no_plan_error_amended :
    ∀ (duration : ℚ), duration ≤ 0 → ∀ (k : ℕ) (envs : ℕ → PartEnv),
      autoPlan duration k = [0] ∧
      Ev.upload ∈ (processFileAuto duration k envs).1 := by
  intro duration hd k envs
  have hnot : ¬(SPLIT_THRESHOLD < duration) :=
    not_lt.mpr (hd.trans (by norm_num [SPLIT_THRESHOLD]))
  constructor
  · simp [autoPlan, hnot]
  · simp [processFileAuto, autoPlan, hnot]
    simpa using trace_has_upload (envs 0) 0

unseal Rat.add Rat.mul Rat.inv Rat.sub Rat.ofScientific in
/-- Witness for the amended C9 at duration 0. -/
theorem c9_no_plan_error_amended_witness :
    autoPlan 0 3 = [0] ∧
    Ev.upload ∈ (processFileAuto 0 3 (fun _ => ⟨true, fun _ => .fail, .opFail⟩)).1 :=
  c9_no_plan_error_amended 0 le_rfl 3 (fun _ => ⟨true, fun _ => .fail, .opFail⟩)

/-! ## Claim C7: timecode validation -/

unseal Rat.add Rat.mul Rat.inv Rat.sub Rat.ofScientific in
/-- Counterexample to C7 as stated: the line `"00:10:00.5"` does not
parse as three colon-separated integers, yet the handler accepts it
(JS `Number` accepts decimal fractions), for a 1200-second file. -/
theorem c7_counterexample :
    handleTimecodeMessage ⟨"file.mp3", "local.mp4", "uk", 7, 1200, 0⟩ "00:10:00.5" =
      ⟨none, .accepted ["00:10:00.5"], []⟩ ∧
    isThreeColonIntegers "00:10:00.5" = false := by
  constructor
  · decide
  · decide

/-- C7 as amended: validation applies in order with the previous cut
defaulting to 0 and rejects, reporting the violating line: any line
that does not parse as three colon-separated *numbers* (JS `Number`
semantics, so decimal fractions and signs are accepted) — format
error; any timecode not strictly greater than the previous one; any
timecode at or beyond the total duration; any gap since the previous
cut exceeding the 19-minute maximum; and, after the loop, a final gap
from the last cut to the end of file exceeding the maximum. -/
theorem c7_validation_order_amended :
    (∀ (duration : ℚ) (tc : String) (rest : List String) (prev : ℚ)
        (acc : List String),
      (parseTimecode tc = none →
        validateTimecodesLoop duration (tc :: rest) prev acc =
          .error (.invalidFormat tc)) ∧
      (∀ s, parseTimecode tc = some s →
        (s ≤ prev →
          validateTimecodesLoop duration (tc :: rest) prev acc =
            .error (.invalidOrder tc)) ∧
        (prev < s → duration ≤ s →
          validateTimecodesLoop duration (tc :: rest) prev acc =
            .error (.beyondDuration tc)) ∧
        (prev < s → s < duration → MAX_SEGMENT_DURATION_SEC < s - prev →
          validateTimecodesLoop duration (tc :: rest) prev acc =
            .error (.segmentTooLong tc)) ∧
        (prev < s → s < duration → s - prev ≤ MAX_SEGMENT_DURATION_SEC →
          validateTimecodesLoop duration (tc :: rest) prev acc =
            validateTimecodesLoop duration rest s (tc :: acc)))) ∧
    (∀ (duration : ℚ) (prev : ℚ) (acc : List String),
      (MAX_SEGMENT_DURATION_SEC < duration - prev →
        validateTimecodesLoop duration [] prev acc =
          .error (.finalSegmentTooLong (acc.headD ""))) ∧
      (duration - prev ≤ MAX_SEGMENT_DURATION_SEC →
        validateTimecodesLoop duration [] prev acc = .ok acc.reverse)) := by
  constructor
  · intro duration tc rest prev acc
    constructor
    · intro h
      simp [validateTimecodesLoop, h]
    · intro s hs
      refine ⟨?_, ?_, ?_, ?_⟩
      · intro h
        simp [validateTimecodesLoop, hs, h]
      · intro h1 h2
        simp [validateTimecodesLoop, hs, not_le.mpr h1, h2]
      · intro h1 h2 h3
        simp [validateTimecodesLoop, hs, not_le.mpr h1, not_le.mpr h2, h3]
      · intro h1 h2 h3
        simp [validateTimecodesLoop, hs, not_le.mpr h1, not_le.mpr h2,
          not_lt.mpr h3]
  · intro duration prev acc
    constructor
    · intro h
      simp [validateTimecodesLoop, h]
    · intro h
      simp [validateTimecodesLoop, not_lt.mpr h]

unseal Rat.add Rat.mul Rat.inv Rat.sub Rat.ofScientific in
/-- Witness for the amended C7: each rejection at a concrete input, in
order, and the acceptance continuation. -/
theorem c7_validation_order_amended_witness :
    validateTimecodesLoop 1200 ["junk"] 0 [] = .error (.invalidFormat "junk") ∧
    validateTimecodesLoop 1200 ["00:05:00"] 600 [] =
      .error (.invalidOrder "00:05:00") ∧
    validateTimecodesLoop 1200 ["00:30:00"] 0 [] =
      .error (.beyondDuration "00:30:00") ∧
    validateTimecodesLoop 2400 ["00:20:00"] 0 [] =
      .error (.segmentTooLong "00:20:00") ∧
    validateTimecodesLoop 2400 [] 600 ["00:10:00"] =
      .error (.finalSegmentTooLong "00:10:00") ∧
    validateTimecodesLoop 2000 [] 900 ["00:15:00"] = .ok ["00:15:00"] := by
  refine ⟨?_, ?_, ?_, ?_, ?_, ?_⟩
  · exact (c7_validation_order_amended.1 1200 "junk" [] 0 []).1 (by decide)
  · exact ((c7_validation_order_amended.1 1200 "00:05:00" [] 600 []).2 300
      (by decide)).1 (by norm_num)
  · exact (((c7_validation_order_amended.1 1200 "00:30:00" [] 0 []).2 1800
      (by decide)).2.1 (by norm_num)) (by norm_num)
  · exact ((((c7_validation_order_amended.1 2400 "00:20:00" [] 0 []).2 1200
      (by decide)).2.2.1 (by norm_num)) (by norm_num))
      (by norm_num [MAX_SEGMENT_DURATION_SEC])
  · exact (c7_validation_order_amended.2 2400 600 ["00:10:00"]).1
      (by norm_num [MAX_SEGMENT_DURATION_SEC])
  · exact (c7_validation_order_amended.2 2000 900 ["00:15:00"]).2
      (by norm_num [MAX_SEGMENT_DURATION_SEC])

/-! ## Claim C8: session state across validation -/

/-- C8: while a session is pending, a message whose timecodes are
rejected (for any of the validation reasons, including an empty list)
leaves the `waitingForTimecodes` entry exactly as it was and deletes no
files, so the user can correct the input; an accepted message removes
the entry and dispatches with the validated lines as the split
points. -/
theorem c8_session_preserved_on_reject :
    ∀ (state : TcSession) (text : String),
      (∀ e, (handleTimecodeMessage state text).reply = .rejected e →
        (handleTimecodeMessage state text).session = some state ∧
        (handleTimecodeMessage state text).deletedFiles = []) ∧
      (∀ sp, (handleTimecodeMessage state text).reply = .accepted sp →
        (handleTimecodeMessage state text).session = none ∧
        (handleTimecodeMessage state text).deletedFiles = [] ∧
        validateTimecodesLoop state.duration (parseMessageLines text) 0 [] =
          .ok sp) := by
  intro state text
  by_cases h1 : parseMessageLines text = []
  · refine ⟨fun e he => ?_, fun sp hsp => ?_⟩
    · exact ⟨by simp [handleTimecodeMessage, h1], by simp [handleTimecodeMessage, h1]⟩
    · simp [handleTimecodeMessage, h1] at hsp
  · rcases hv : validateTimecodesLoop state.duration (parseMessageLines text) 0 [] with
      e | sp2
    · refine ⟨fun e2 he2 => ?_, fun sp hsp => ?_⟩
      · exact ⟨by simp [handleTimecodeMessage, h1, hv],
          by simp [handleTimecodeMessage, h1, hv]⟩
      · simp [handleTimecodeMessage, h1, hv] at hsp
    · refine ⟨fun e2 he2 => ?_, fun sp hsp => ?_⟩
      · simp [handleTimecodeMessage, h1, hv] at he2
      · have hsp2 : sp2 = sp := by
          simpa [handleTimecodeMessage, h1, hv] using hsp
        subst hsp2
        exact ⟨by simp [handleTimecodeMessage, h1, hv],
          by simp [handleTimecodeMessage, h1, hv], by simp [hv]⟩

unseal Rat.add Rat.mul Rat.inv Rat.sub Rat.ofScientific in
/-- Witness for C8: a rejected and an accepted message against a
concrete 1200-second session. -/
theorem c8_session_preserved_on_reject_witness :
    (handleTimecodeMessage ⟨"f", "l", "uk", 1, 1200, 0⟩ "junk").session =
      some ⟨"f", "l", "uk", 1, 1200, 0⟩ ∧
    (handleTimecodeMessage ⟨"f", "l", "uk", 1, 1200, 0⟩ "00:10:00").session = none ∧
    validateTimecodesLoop 1200 (parseMessageLines "00:10:00") 0 [] =
      .ok ["00:10:00"] := by
  refine ⟨?_, ?_, ?_⟩
  · exact ((c8_session_preserved_on_reject ⟨"f", "l", "uk", 1, 1200, 0⟩ "junk").1
      (.invalidFormat "junk") (by decide)).1
  · exact ((c8_session_preserved_on_reject ⟨"f", "l", "uk", 1, 1200, 0⟩ "00:10:00").2
      ["00:10:00"] (by decide)).1
  · exact ((c8_session_preserved_on_reject ⟨"f", "l", "uk", 1, 1200, 0⟩ "00:10:00").2
      ["00:10:00"] (by decide)).2.2

end TranscribeBot